import Mathlib

/-!
Shallow embedding of the Nutrichat repository (src/ingest.py and
src/test_embeddings.py) and proofs about the claims of its specification.

Strings are modelled as `List Char` (with `String` wrappers where the claims
speak of strings).  Python's regex class `\s` and `str.strip()` are modelled
over the ASCII whitespace characters.
-/

set_option autoImplicit false

/-- Python's whitespace class `\s`, modelled over the ASCII whitespace
characters (space, tab, newline, carriage return, vertical tab, form feed). -/
def isPySpace (c : Char) : Bool :=
  c = ' ' || c = '\t' || c = '\n' || c = '\r' || c = '\x0b' || c = '\x0c'

/-- Space-or-tab, the character class `[ \t]` of ingest.py line 40. -/
def isST (c : Char) : Bool :=
  c = ' ' || c = '\t'

/-- Step 1 of clean_text (ingest.py line 37): `t.replace("\r", " ")`. -/
def replaceCr (l : List Char) : List Char :=
  l.map (fun c => if c = '\r' then ' ' else c)

/-- Step 2 of clean_text (ingest.py line 38): `re.sub(r"-\s*\n\s*", "", t)`.
A hyphen followed by a whitespace run containing at least one newline is
removed together with that whole run (leftmost match, greedy trailing `\s*`).
The Boolean state records whether we are inside the whitespace run of a
match that is being dropped. -/
def subHyphenGo : Bool → List Char → List Char
  | _, [] => []
  | dropping, c :: rest =>
    if dropping && isPySpace c then
      subHyphenGo true rest
    else if c = '-' && (rest.takeWhile isPySpace).contains '\n' then
      subHyphenGo true rest
    else
      c :: subHyphenGo false rest

def subHyphen (l : List Char) : List Char :=
  subHyphenGo false l

/-- Step 3 of clean_text (ingest.py line 39): `re.sub(r"\s+\n", "\n", t)`.
Per-character form of the leftmost-greedy substitution: a whitespace
character is dropped exactly when a newline occurs later in its maximal
whitespace run. -/
def subWsNl : List Char → List Char
  | [] => []
  | c :: rest =>
    if isPySpace c && (rest.takeWhile isPySpace).contains '\n' then
      subWsNl rest
    else
      c :: subWsNl rest

/-- Step 4 of clean_text (ingest.py line 40): `re.sub(r"[ \t]+", " ", t)`.
Each maximal run of spaces/tabs collapses to a single space; the Boolean
state records whether we are inside a run whose space was already emitted. -/
def subSpaceTabGo : Bool → List Char → List Char
  | _, [] => []
  | inRun, c :: rest =>
    if isST c then
      (if inRun then [] else [' ']) ++ subSpaceTabGo true rest
    else
      c :: subSpaceTabGo false rest

def subSpaceTab (l : List Char) : List Char :=
  subSpaceTabGo false l

/-- Step 5a of clean_text (ingest.py line 41): `t.replace("\n", " ")`. -/
def replaceNl (l : List Char) : List Char :=
  l.map (fun c => if c = '\n' then ' ' else c)

/-- Removal of a trailing whitespace run, the right half of `str.strip()`. -/
def dropTrailingWs : List Char → List Char
  | [] => []
  | c :: rest =>
    let r := dropTrailingWs rest
    if r = [] && isPySpace c then [] else c :: r

/-- Python `str.strip()`: drop leading and trailing whitespace. -/
def pyStrip (l : List Char) : List Char :=
  dropTrailingWs (l.dropWhile isPySpace)

/-- The whole pipeline of `clean_text` (ingest.py lines 35-42) on `List Char`. -/
def cleanTextL (l : List Char) : List Char :=
  pyStrip (replaceNl (subSpaceTab (subWsNl (subHyphen (replaceCr l)))))

/-- `clean_text` of ingest.py lines 35-42, on `String`. -/
def clean_text (s : String) : String :=
  ⟨cleanTextL s.data⟩

/-- `str.strip()` on `String`, used by the `if chunk.strip()` filter. -/
def pyStripS (s : String) : String :=
  ⟨pyStrip s.data⟩

/-! ### Membership lemmas for the clean_text pipeline -/

theorem mem_subHyphenGo {x : Char} : ∀ {b : Bool} {l : List Char},
    x ∈ subHyphenGo b l → x ∈ l := by
  intro b l
  induction l generalizing b with
  | nil => intro h; exact absurd h (List.not_mem_nil x)
  | cons c rest ih =>
    intro h
    simp only [subHyphenGo] at h
    split at h
    · exact List.mem_cons_of_mem c (ih h)
    · split at h
      · exact List.mem_cons_of_mem c (ih h)
      · rcases List.mem_cons.mp h with h | h
        · exact h ▸ List.mem_cons_self c rest
        · exact List.mem_cons_of_mem c (ih h)

theorem mem_subWsNl {x : Char} : ∀ {l : List Char}, x ∈ subWsNl l → x ∈ l := by
  intro l
  induction l with
  | nil => intro h; exact absurd h (List.not_mem_nil x)
  | cons c rest ih =>
    intro h
    simp only [subWsNl] at h
    split at h
    · exact List.mem_cons_of_mem c (ih h)
    · rcases List.mem_cons.mp h with h | h
      · exact h ▸ List.mem_cons_self c rest
      · exact List.mem_cons_of_mem c (ih h)

theorem mem_subSpaceTabGo {x : Char} : ∀ {b : Bool} {l : List Char},
    x ∈ subSpaceTabGo b l → x ∈ l ∨ x = ' ' := by
  intro b l
  induction l generalizing b with
  | nil => intro h; exact absurd h (List.not_mem_nil x)
  | cons c rest ih =>
    intro h
    simp only [subSpaceTabGo] at h
    split at h
    · rcases List.mem_append.mp h with h | h
      · split at h
        · exact absurd h (List.not_mem_nil x)
        · right; simpa using h
      · rcases ih h with h | h
        · exact Or.inl (List.mem_cons_of_mem c h)
        · exact Or.inr h
    · rcases List.mem_cons.mp h with h | h
      · exact Or.inl (h ▸ List.mem_cons_self c rest)
      · rcases ih h with h | h
        · exact Or.inl (List.mem_cons_of_mem c h)
        · exact Or.inr h

theorem mem_dropTrailingWs {x : Char} : ∀ {l : List Char},
    x ∈ dropTrailingWs l → x ∈ l := by
  intro l
  induction l with
  | nil => intro h; exact absurd h (List.not_mem_nil x)
  | cons c rest ih =>
    intro h
    simp only [dropTrailingWs] at h
    split at h
    · exact absurd h (List.not_mem_nil x)
    · rcases List.mem_cons.mp h with h | h
      · exact h ▸ List.mem_cons_self c rest
      · exact List.mem_cons_of_mem c (ih h)

theorem mem_pyStrip {x : Char} {l : List Char} (h : x ∈ pyStrip l) : x ∈ l :=
  (List.dropWhile_sublist isPySpace).subset (mem_dropTrailingWs h)

theorem replaceCr_no_cr {x : Char} {l : List Char} (h : x ∈ replaceCr l) :
    x ≠ '\r' := by
  simp only [replaceCr, List.mem_map] at h
  obtain ⟨c, -, rfl⟩ := h
  split <;> simp_all

theorem replaceNl_no_nl {x : Char} {l : List Char} (h : x ∈ replaceNl l) :
    x ≠ '\n' := by
  simp only [replaceNl, List.mem_map] at h
  obtain ⟨c, -, rfl⟩ := h
  split <;> simp_all

theorem replaceNl_keeps_no_cr {x : Char} {l : List Char}
    (hl : ∀ y ∈ l, y ≠ '\r') (h : x ∈ replaceNl l) : x ≠ '\r' := by
  simp only [replaceNl, List.mem_map] at h
  obtain ⟨c, hc, rfl⟩ := h
  split
  · simp
  · exact hl c hc

/-- The output of the full pipeline contains no carriage return. -/
theorem cleanTextL_no_cr {l : List Char} : '\r' ∉ cleanTextL l := by
  intro h
  have h1 := mem_pyStrip h
  have h2 : ∀ y ∈ subSpaceTab (subWsNl (subHyphen (replaceCr l))), y ≠ '\r' := by
    intro y hy
    rcases mem_subSpaceTabGo hy with hy | hy
    · exact replaceCr_no_cr (mem_subHyphenGo (mem_subWsNl hy))
    · subst hy; simp
  exact replaceNl_keeps_no_cr h2 h1 rfl

/-- The output of the full pipeline contains no newline. -/
theorem cleanTextL_no_nl {l : List Char} : '\n' ∉ cleanTextL l := by
  intro h
  exact replaceNl_no_nl (mem_pyStrip h) rfl

/-- C2: for every input string, the output of clean_text contains no
carriage return, no hyphen immediately followed by a newline, and no
newline at all. -/
theorem clean_text_no_cr_no_hyphen_nl_no_nl (s : String) :
    '\r' ∉ (clean_text s).data ∧
      ¬ List.IsInfix ['-', '\n'] (clean_text s).data ∧
      '\n' ∉ (clean_text s).data := by
  refine ⟨cleanTextL_no_cr, ?_, cleanTextL_no_nl⟩
  intro hinf
  exact cleanTextL_no_nl (hinf.subset (by simp))

/-! ### Identity lemmas on newline-free input -/

theorem replaceCr_id {l : List Char} (h : '\r' ∉ l) : replaceCr l = l := by
  induction l with
  | nil => rfl
  | cons c rest ih =>
    have hc : c ≠ '\r' := fun hc => h (hc ▸ List.mem_cons_self c rest)
    simp only [replaceCr, List.map_cons, if_neg hc]
    exact congrArg (c :: ·) (ih (fun hm => h (List.mem_cons_of_mem c hm)))

theorem replaceNl_id {l : List Char} (h : '\n' ∉ l) : replaceNl l = l := by
  induction l with
  | nil => rfl
  | cons c rest ih =>
    have hc : c ≠ '\n' := fun hc => h (hc ▸ List.mem_cons_self c rest)
    simp only [replaceNl, List.map_cons, if_neg hc]
    exact congrArg (c :: ·) (ih (fun hm => h (List.mem_cons_of_mem c hm)))

theorem takeWhile_contains_nl {l : List Char}
    (h : (l.takeWhile isPySpace).contains '\n' = true) : '\n' ∈ l := by
  have : '\n' ∈ l.takeWhile isPySpace := by simpa using h
  exact (List.takeWhile_sublist isPySpace).subset this

theorem subHyphenGo_id {l : List Char} (h : '\n' ∉ l) : subHyphenGo false l = l := by
  induction l with
  | nil => rfl
  | cons c rest ih =>
    have hco : (rest.takeWhile isPySpace).contains '\n' = false := by
      cases hx : (rest.takeWhile isPySpace).contains '\n' with
      | false => rfl
      | true => exact absurd (List.mem_cons_of_mem c (takeWhile_contains_nl hx)) h
    simp only [subHyphenGo, Bool.false_and, if_neg (Bool.false_ne_true), hco,
      Bool.and_false, if_neg (Bool.false_ne_true)]
    exact congrArg (c :: ·) (ih (fun hm => h (List.mem_cons_of_mem c hm)))

theorem subWsNl_id {l : List Char} (h : '\n' ∉ l) : subWsNl l = l := by
  induction l with
  | nil => rfl
  | cons c rest ih =>
    have hco : (rest.takeWhile isPySpace).contains '\n' = false := by
      cases hx : (rest.takeWhile isPySpace).contains '\n' with
      | false => rfl
      | true => exact absurd (List.mem_cons_of_mem c (takeWhile_contains_nl hx)) h
    simp only [subWsNl, hco, Bool.and_false, if_neg (Bool.false_ne_true)]
    exact congrArg (c :: ·) (ih (fun hm => h (List.mem_cons_of_mem c hm)))

theorem subSpaceTab_no_nl {l : List Char} (h : '\n' ∉ l) : '\n' ∉ subSpaceTab l := by
  intro hm
  rcases mem_subSpaceTabGo hm with hm | hm
  · exact h hm
  · exact absurd hm (by decide)

/-- On input without newlines or carriage returns, clean_text reduces to
collapsing space/tab runs followed by stripping. -/
theorem cleanTextL_of_no_nl_cr {l : List Char} (hn : '\n' ∉ l) (hr : '\r' ∉ l) :
    cleanTextL l = pyStrip (subSpaceTab l) := by
  unfold cleanTextL
  rw [replaceCr_id hr, subHyphen, subHyphenGo_id hn, subWsNl_id hn,
    replaceNl_id (subSpaceTab_no_nl hn)]

/-! ### Shape invariants of collapsed output -/

/-- Head of a list is not a space/tab (vacuously true for empty lists). -/
def headNotST : List Char → Bool
  | [] => true
  | c :: _ => !isST c

/-- No tab anywhere, and no space/tab character directly followed by
another space/tab character: the lists on which collapsing runs of
spaces and tabs is the identity. -/
def goodST : List Char → Bool
  | [] => true
  | c :: rest => (c != '\t') && (!isST c || headNotST rest) && goodST rest

theorem goodST_tail {c : Char} {l : List Char} (h : goodST (c :: l) = true) :
    goodST l = true := by
  simp only [goodST, Bool.and_eq_true] at h
  exact h.2

/-- The output of collapsing space/tab runs always satisfies `goodST`. -/
theorem goodST_subSpaceTabGo : ∀ (l : List Char),
    goodST (subSpaceTabGo true l) = true ∧
      headNotST (subSpaceTabGo true l) = true ∧
      goodST (subSpaceTabGo false l) = true := by
  intro l
  induction l with
  | nil => exact ⟨rfl, rfl, rfl⟩
  | cons c rest ih =>
    obtain ⟨ih1, ih2, ih3⟩ := ih
    by_cases hst : isST c = true
    · have h1 : subSpaceTabGo true (c :: rest) = subSpaceTabGo true rest := by
        simp [subSpaceTabGo, hst]
      have h2 : subSpaceTabGo false (c :: rest) = ' ' :: subSpaceTabGo true rest := by
        simp [subSpaceTabGo, hst]
      refine ⟨h1 ▸ ih1, h1 ▸ ih2, ?_⟩
      rw [h2]
      simp only [goodST, Bool.and_eq_true]
      exact ⟨⟨by decide, by simp [ih2]⟩, ih1⟩
    · have hb : ∀ b, subSpaceTabGo b (c :: rest) = c :: subSpaceTabGo false rest := by
        intro b; simp [subSpaceTabGo, hst]
      have hg : goodST (c :: subSpaceTabGo false rest) = true := by
        simp only [goodST, Bool.and_eq_true]
        refine ⟨⟨?_, ?_⟩, ih3⟩
        · have : c ≠ '\t' := by
            intro hc; exact hst (by simp [isST, hc])
          simpa using this
        · simp [hst]
      refine ⟨hb true ▸ hg, ?_, hb false ▸ hg⟩
      rw [hb true]
      simp [headNotST, hst]

/-- Collapsing space/tab runs is the identity on `goodST` lists. -/
theorem subSpaceTabGo_id : ∀ (l : List Char), goodST l = true →
    subSpaceTabGo false l = l ∧
      (headNotST l = true → subSpaceTabGo true l = l) := by
  intro l
  induction l with
  | nil => exact fun _ => ⟨rfl, fun _ => rfl⟩
  | cons c rest ih =>
    intro hg
    have hrest := goodST_tail hg
    obtain ⟨ihf, iht⟩ := ih hrest
    simp only [goodST, Bool.and_eq_true] at hg
    obtain ⟨⟨hnt, hpair⟩, -⟩ := hg
    by_cases hst : isST c = true
    · have hsp : c = ' ' := by
        have : c ≠ '\t' := by simpa using hnt
        simp only [isST, Bool.or_eq_true, decide_eq_true_eq] at hst
        tauto
      have hhead : headNotST rest = true := by
        rcases Bool.or_eq_true _ _ |>.mp hpair with h | h
        · rw [hst] at h; exact absurd h (by decide)
        · exact h
      constructor
      · simp only [subSpaceTabGo, hst, if_true]
        rw [iht hhead, hsp]
        rfl
      · intro hh
        simp only [headNotST, hst] at hh
        exact absurd hh (by decide)
    · have hb : ∀ b, subSpaceTabGo b (c :: rest) = c :: subSpaceTabGo false rest := by
        intro b; simp [subSpaceTabGo, hst]
      exact ⟨by rw [hb false, ihf], fun _ => by rw [hb true, ihf]⟩

theorem subSpaceTab_id {l : List Char} (h : goodST l = true) :
    subSpaceTab l = l :=
  (subSpaceTabGo_id l h).1

/-! ### goodST is preserved by stripping -/

theorem goodST_dropWhile {p : Char → Bool} : ∀ {l : List Char},
    goodST l = true → goodST (l.dropWhile p) = true := by
  intro l
  induction l with
  | nil => intro h; exact h
  | cons c rest ih =>
    intro h
    by_cases hp : p c = true
    · rw [List.dropWhile_cons_of_pos hp]
      exact ih (goodST_tail h)
    · rw [List.dropWhile_cons_of_neg (by simpa using hp)]
      exact h

theorem headNotST_dropTrailingWs {l : List Char} (h : headNotST l = true) :
    headNotST (dropTrailingWs l) = true := by
  cases l with
  | nil => exact h
  | cons c rest =>
    simp only [dropTrailingWs]
    split
    · rfl
    · simpa [headNotST] using h

theorem goodST_dropTrailingWs : ∀ {l : List Char},
    goodST l = true → goodST (dropTrailingWs l) = true := by
  intro l
  induction l with
  | nil => intro h; exact h
  | cons c rest ih =>
    intro h
    have hrest := goodST_tail h
    simp only [goodST, Bool.and_eq_true] at h
    obtain ⟨⟨hnt, hpair⟩, -⟩ := h
    simp only [dropTrailingWs]
    split
    · rfl
    · simp only [goodST, Bool.and_eq_true]
      refine ⟨⟨hnt, ?_⟩, ih hrest⟩
      rcases Bool.or_eq_true _ _ |>.mp hpair with hc | hc
      · simp [hc]
      · simp [headNotST_dropTrailingWs hc]

theorem goodST_pyStrip {l : List Char} (h : goodST l = true) :
    goodST (pyStrip l) = true :=
  goodST_dropTrailingWs (goodST_dropWhile h)

/-! ### Idempotence of stripping -/

/-- Head of a list is not whitespace (vacuously true for empty lists). -/
def headNotWs : List Char → Bool
  | [] => true
  | c :: _ => !isPySpace c

/-- Last element of a list is not whitespace (vacuously true for empty lists). -/
def lastNotWs : List Char → Bool
  | [] => true
  | [c] => !isPySpace c
  | _ :: c :: rest => lastNotWs (c :: rest)

theorem headNotWs_dropWhile : ∀ (l : List Char),
    headNotWs (l.dropWhile isPySpace) = true := by
  intro l
  induction l with
  | nil => rfl
  | cons c rest ih =>
    by_cases hp : isPySpace c = true
    · rw [List.dropWhile_cons_of_pos hp]; exact ih
    · rw [List.dropWhile_cons_of_neg (by simpa using hp)]
      simpa [headNotWs] using hp

theorem dropWhile_id_of_headNotWs {l : List Char} (h : headNotWs l = true) :
    l.dropWhile isPySpace = l := by
  cases l with
  | nil => rfl
  | cons c rest =>
    simp only [headNotWs, Bool.not_eq_true'] at h
    exact List.dropWhile_cons_of_neg (by simp [h])

theorem lastNotWs_dropTrailingWs : ∀ (l : List Char),
    lastNotWs (dropTrailingWs l) = true := by
  intro l
  induction l with
  | nil => rfl
  | cons c rest ih =>
    show lastNotWs
      (if dropTrailingWs rest = [] && isPySpace c then []
        else c :: dropTrailingWs rest) = true
    cases hr : dropTrailingWs rest with
    | nil =>
      cases hc : isPySpace c with
      | true => simp only [hc]; rfl
      | false => simp [lastNotWs, hc]
    | cons d ds =>
      have h2 := ih
      rw [hr] at h2
      simpa [lastNotWs] using h2

theorem dropTrailingWs_id_of_lastNotWs : ∀ {l : List Char},
    lastNotWs l = true → dropTrailingWs l = l := by
  intro l
  induction l with
  | nil => intro _; rfl
  | cons c rest ih =>
    intro h
    cases rest with
    | nil =>
      simp only [lastNotWs, Bool.not_eq_true'] at h
      simp [dropTrailingWs, h]
    | cons d ds =>
      have hrest : dropTrailingWs (d :: ds) = d :: ds :=
        ih (by simpa [lastNotWs] using h)
      show (if dropTrailingWs (d :: ds) = [] && isPySpace c then []
        else c :: dropTrailingWs (d :: ds)) = c :: d :: ds
      rw [hrest]
      simp

theorem headNotWs_dropTrailingWs {l : List Char} (h : headNotWs l = true) :
    headNotWs (dropTrailingWs l) = true := by
  cases l with
  | nil => exact h
  | cons c rest =>
    simp only [dropTrailingWs]
    split
    · rfl
    · simpa [headNotWs] using h

theorem pyStrip_idem (l : List Char) : pyStrip (pyStrip l) = pyStrip l := by
  unfold pyStrip
  rw [dropWhile_id_of_headNotWs
    (headNotWs_dropTrailingWs (headNotWs_dropWhile l)),
    dropTrailingWs_id_of_lastNotWs
    (lastNotWs_dropTrailingWs (l.dropWhile isPySpace))]

/-! ### Idempotence behaviour of clean_text (claim C3) -/

theorem cleanTextL_double_fixed (l : List Char) :
    cleanTextL (cleanTextL (cleanTextL l)) = cleanTextL (cleanTextL l) := by
  have h3 : cleanTextL (cleanTextL l) = pyStrip (subSpaceTab (cleanTextL l)) :=
    cleanTextL_of_no_nl_cr cleanTextL_no_nl cleanTextL_no_cr
  have hgood : goodST (cleanTextL (cleanTextL l)) = true := by
    rw [h3]
    exact goodST_pyStrip (goodST_subSpaceTabGo (cleanTextL l)).2.2
  have h4 : cleanTextL (cleanTextL (cleanTextL l)) =
      pyStrip (subSpaceTab (cleanTextL (cleanTextL l))) :=
    cleanTextL_of_no_nl_cr cleanTextL_no_nl cleanTextL_no_cr
  rw [h4, subSpaceTab_id hgood, h3, pyStrip_idem]

/-- C3 (corrected): clean_text is not idempotent in general, but the result
of applying it twice is a fixed point: for every string, three applications
agree with two. -/
theorem clean_text_double_application_fixed (s : String) :
    clean_text (clean_text (clean_text s)) = clean_text (clean_text s) :=
  congrArg String.mk (cleanTextL_double_fixed s.data)

/-- C3 counterexample: on the input "a\n b" a single application of
clean_text yields "a  b" (two spaces), which a second application collapses
to "a b", so clean_text (clean_text s) differs from clean_text s there. -/
theorem clean_text_not_idempotent :
    clean_text (clean_text "a\n b") ≠ clean_text "a\n b" := by decide

/-! ### Ingest data model (ingest.py, main) -/

/-- Metadata recorded for each chunk, ingest.py line 86:
`{"page": page, "source": PDF_PATH}`. -/
structure ChunkMeta where
  page : Nat
  source : String
  deriving DecidableEq, Repr

instance : Inhabited ChunkMeta := ⟨⟨0, ""⟩⟩

/-- A row of the chunks table, ingest.py lines 101-108.  Embedding vectors
are abstracted as integer lists: no claim depends on their numeric values. -/
structure Row where
  doc_id : String
  chunk_index : Nat
  content : String
  metadata : ChunkMeta
  embedding : List Int
  deriving DecidableEq, Repr

instance : Inhabited Row := ⟨⟨"", 0, "", default, []⟩⟩

/-- The chunk-building loop of ingest.py lines 79-86: pages with empty
cleaned text are skipped, each page is split, and chunks that are empty
after stripping are dropped; surviving chunks are paired with their
page/source metadata in production order.  The splitter is a parameter
(it is the external langchain library in the source). -/
def buildChunks (split : String → List String) (src : String)
    (pages : List (Nat × String)) : List (String × ChunkMeta) :=
  pages.flatMap (fun pt =>
    if pt.2 = "" then []
    else ((split pt.2).filter (fun c => pyStripS c ≠ "")).map
      (fun c => (c, ⟨pt.1, src⟩)))

/-- The row-building loop of ingest.py lines 99-109:
`for idx, (content, emb, meta) in enumerate(zip(inputs, vectors, metas))`. -/
def enumRows (d : String) : Nat → List (String × List Int × ChunkMeta) → List Row
  | _, [] => []
  | i, (c, v, m) :: rest => ⟨d, i, c, m, v⟩ :: enumRows d (i + 1) rest

def buildRows (d : String) (inputs : List String) (vectors : List (List Int))
    (metas : List ChunkMeta) : List Row :=
  enumRows d 0 (inputs.zip (vectors.zip metas))

/-- Batch slicing `l[i : i + n]` for `i in range(0, len(l), n)` (ingest.py
lines 93-94 and 112-113), with a fuel argument bounded by the list length
so the recursion is structural. -/
def sliceBatchesGo {α : Type*} (n : Nat) : Nat → List α → List (List α)
  | _, [] => []
  | 0, a :: l => [a :: l]
  | fuel + 1, a :: l => (a :: l).take n :: sliceBatchesGo n fuel ((a :: l).drop n)

def sliceBatches {α : Type*} (n : Nat) (l : List α) : List (List α) :=
  sliceBatchesGo n l.length l

/-- `BATCH_EMBED` of ingest.py line 23. -/
def BATCH_EMBED : Nat := 100

/-- `BATCH_INSERT` of ingest.py line 24. -/
def BATCH_INSERT : Nat := 200

/-- The embedding loop of ingest.py lines 91-96: the encoder is called on
consecutive batches of 100 inputs in input order and the returned vectors
are concatenated by `vectors.extend`. -/
def embedAll (encode : List String → List (List Int)) (inputs : List String) :
    List (List Int) :=
  ((sliceBatches BATCH_EMBED inputs).map encode).flatten

theorem join_sliceBatchesGo {α : Type*} {n : Nat} (hn : 0 < n) :
    ∀ (fuel : Nat) (l : List α), l.length ≤ fuel →
      (sliceBatchesGo n fuel l).flatten = l := by
  intro fuel
  induction fuel with
  | zero =>
    intro l hl
    cases l with
    | nil => rfl
    | cons a l => exact absurd hl (by simp)
  | succ fuel ih =>
    intro l hl
    cases l with
    | nil => rfl
    | cons a l =>
      have hdrop : ((a :: l).drop n).length ≤ fuel := by
        simp only [List.length_drop, List.length_cons] at hl ⊢
        omega
      simp only [sliceBatchesGo, List.flatten_cons, ih _ hdrop,
        List.take_append_drop]

theorem join_sliceBatches {α : Type*} {n : Nat} (hn : 0 < n) (l : List α) :
    (sliceBatches n l).flatten = l :=
  join_sliceBatchesGo hn l.length l le_rfl

/-! ### Chunk index contiguity (claims C1 and C9) -/

theorem length_enumRows (d : String) :
    ∀ (k : Nat) (z : List (String × List Int × ChunkMeta)),
      (enumRows d k z).length = z.length := by
  intro k z
  induction z generalizing k with
  | nil => rfl
  | cons p rest ih =>
    obtain ⟨c, v, m⟩ := p
    simp [enumRows, ih]

theorem map_chunk_index_enumRows (d : String) :
    ∀ (k : Nat) (z : List (String × List Int × ChunkMeta)),
      (enumRows d k z).map (fun r => r.chunk_index) = List.range' k z.length := by
  intro k z
  induction z generalizing k with
  | nil => rfl
  | cons p rest ih =>
    obtain ⟨c, v, m⟩ := p
    simp [enumRows, ih, List.range'_succ]

theorem map_content_enumRows (d : String) :
    ∀ (k : Nat) (z : List (String × List Int × ChunkMeta)),
      (enumRows d k z).map (fun r => r.content) = z.map (fun p => p.1) := by
  intro k z
  induction z generalizing k with
  | nil => rfl
  | cons p rest ih =>
    obtain ⟨c, v, m⟩ := p
    simp [enumRows, ih]

theorem map_fst_zip_take {α β : Type*} :
    ∀ (l₁ : List α) (l₂ : List β),
      (l₁.zip l₂).map Prod.fst = l₁.take (l₁.zip l₂).length := by
  intro l₁
  induction l₁ with
  | nil => intro l₂; rfl
  | cons a l ih =>
    intro l₂
    cases l₂ with
    | nil => rfl
    | cons b l₂ => simp [List.zip_cons_cons, ih]

theorem buildRows_indices (d : String) (inputs : List String)
    (vectors : List (List Int)) (metas : List ChunkMeta) :
    (buildRows d inputs vectors metas).map (fun r => r.chunk_index)
        = List.range (buildRows d inputs vectors metas).length ∧
      (buildRows d inputs vectors metas).map (fun r => r.content)
        = inputs.take (buildRows d inputs vectors metas).length := by
  unfold buildRows
  constructor
  · rw [List.range_eq_range', map_chunk_index_enumRows, length_enumRows]
  · rw [map_content_enumRows, length_enumRows, map_fst_zip_take]

theorem buildChunks_strip_ne_empty (split : String → List String)
    (src : String) (pages : List (Nat × String)) :
    ∀ p ∈ buildChunks split src pages, pyStripS p.1 ≠ "" := by
  intro p hp
  simp only [buildChunks, List.mem_flatMap] at hp
  obtain ⟨pt, -, hmem⟩ := hp
  split at hmem
  · exact absurd hmem (List.not_mem_nil p)
  · simp only [List.mem_map] at hmem
    obtain ⟨c, hc, rfl⟩ := hmem
    exact of_decide_eq_true (List.mem_filter.mp hc).2

/-- C1: for every ingest run, the chunk_index values of the built rows form
the contiguous 0-based sequence 0, 1, 2, ...; the row contents are the
produced chunks in production order; and every chunk that survives into the
indexed list is non-whitespace after stripping (whitespace-only chunks are
dropped before indexing and consume no slot). -/
theorem chunk_index_contiguous (split : String → List String) (src d : String)
    (pages : List (Nat × String)) (vectors : List (List Int)) :
    (buildRows d ((buildChunks split src pages).map Prod.fst) vectors
          ((buildChunks split src pages).map Prod.snd)).map
        (fun r => r.chunk_index)
      = List.range (buildRows d ((buildChunks split src pages).map Prod.fst)
          vectors ((buildChunks split src pages).map Prod.snd)).length ∧
      (buildRows d ((buildChunks split src pages).map Prod.fst) vectors
            ((buildChunks split src pages).map Prod.snd)).map
          (fun r => r.content)
        = ((buildChunks split src pages).map Prod.fst).take
            (buildRows d ((buildChunks split src pages).map Prod.fst) vectors
              ((buildChunks split src pages).map Prod.snd)).length ∧
      ∀ p ∈ buildChunks split src pages, pyStripS p.1 ≠ "" :=
  ⟨(buildRows_indices d _ vectors _).1, (buildRows_indices d _ vectors _).2,
    buildChunks_strip_ne_empty split src pages⟩

/-- C9: clean_text of the empty string is the empty string, and a page whose
cleaned text is empty is skipped during chunking: it contributes no chunks
(hence no rows) to the ingest run. -/
theorem empty_clean_and_empty_page_skipped :
    clean_text "" = "" ∧
      ∀ (split : String → List String) (src : String) (n : Nat)
        (rest : List (Nat × String)),
        buildChunks split src ((n, "") :: rest) = buildChunks split src rest := by
  constructor
  · rfl
  · intro split src n rest
    simp [buildChunks]

/-! ### Embedding alignment (claim C5) -/

theorem embedAll_eq_map {f : String → List Int}
    {encode : List String → List (List Int)} (h : ∀ b, encode b = b.map f)
    (inputs : List String) : embedAll encode inputs = inputs.map f := by
  unfold embedAll
  have hmap : (sliceBatches BATCH_EMBED inputs).map encode
      = (sliceBatches BATCH_EMBED inputs).map (List.map f) :=
    List.map_congr_left (fun b _ => h b)
  rw [hmap, ← List.map_flatten, join_sliceBatches (by decide : 0 < BATCH_EMBED)]

theorem zip_with_mapped_vectors (f : String → List Int) :
    ∀ (cm : List (String × ChunkMeta)),
      (cm.map Prod.fst).zip (((cm.map Prod.fst).map f).zip (cm.map Prod.snd))
        = cm.map (fun p => (p.1, f p.1, p.2)) := by
  intro cm
  induction cm with
  | nil => rfl
  | cons p rest ih => simp only [List.map_cons, List.zip_cons_cons, ih]

theorem enumRows_getD (d : String) :
    ∀ (z : List (String × List Int × ChunkMeta)) (k i : Nat), i < z.length →
      (enumRows d k z).getD i default
        = ⟨d, k + i, (z.getD i default).1, (z.getD i default).2.2,
            (z.getD i default).2.1⟩ := by
  intro z
  induction z with
  | nil => intro k i hi; exact absurd hi (by simp)
  | cons p rest ih =>
    intro k i hi
    obtain ⟨c, v, m⟩ := p
    cases i with
    | zero => rfl
    | succ i =>
      have hi : i < rest.length := by simpa using hi
      show (enumRows d (k + 1) rest).getD i default = _
      rw [ih (k + 1) i hi]
      simp [Nat.add_assoc, Nat.add_comm 1 i]

theorem getD_map_pair (g : (String × ChunkMeta) → String × List Int × ChunkMeta) :
    ∀ (cm : List (String × ChunkMeta)) (i : Nat), i < cm.length →
      (cm.map g).getD i default = g (cm.getD i default) := by
  intro cm
  induction cm with
  | nil => intro i hi; exact absurd hi (by simp)
  | cons p rest ih =>
    intro i hi
    cases i with
    | zero => rfl
    | succ i => exact ih i (by simpa using hi)

/-- C5: assuming the embedding model maps each batch of N inputs to exactly
N vectors in order (each vector a function of its input string), the row at
position i of the built rows has chunk_index i and is built from inputs i,
the embedding of inputs i, and the metadata of inputs i. -/
theorem embedding_alignment (encode : List String → List (List Int))
    (f : String → List Int) (h : ∀ b, encode b = b.map f) (d : String)
    (cm : List (String × ChunkMeta)) (i : Nat) (hi : i < cm.length) :
    (buildRows d (cm.map Prod.fst) (embedAll encode (cm.map Prod.fst))
        (cm.map Prod.snd)).getD i default
      = ⟨d, i, (cm.getD i default).1, (cm.getD i default).2,
          f (cm.getD i default).1⟩ := by
  unfold buildRows
  rw [embedAll_eq_map h, zip_with_mapped_vectors]
  rw [enumRows_getD d _ 0 i (by simpa using hi),
    getD_map_pair (fun p => (p.1, f p.1, p.2)) cm i hi]
  simp

/-- Witness for C5 at a concrete encoder, document and chunk list. -/
theorem embedding_alignment_witness :
    (buildRows "doc" ["ab", "c"]
        (embedAll (fun b => b.map (fun s => [(s.length : Int)])) ["ab", "c"])
        [⟨1, "p.pdf"⟩, ⟨2, "p.pdf"⟩]).getD 1 default
      = ⟨"doc", 1, "c", ⟨2, "p.pdf"⟩, [1]⟩ := by
  have h := embedding_alignment (fun b => b.map (fun s => [(s.length : Int)]))
    (fun s => [(s.length : Int)]) (fun _ => rfl) "doc"
    [("ab", ⟨1, "p.pdf"⟩), ("c", ⟨2, "p.pdf"⟩)] 1 (by decide)
  exact h

/-! ### Store trace: delete before insert (claim C4) -/

/-- An operation issued against the chunks table. -/
inductive StoreOp where
  | delete (d : String)
  | insert (rows : List Row)
  deriving DecidableEq

/-- Effect of one operation on the table contents:
`sb.table("chunks").delete().eq("doc_id", d)` removes exactly the rows whose
doc_id equals d; `insert` appends its rows. -/
def applyOp (st : List Row) : StoreOp → List Row
  | StoreOp.delete d => st.filter (fun r => r.doc_id ≠ d)
  | StoreOp.insert rs => st ++ rs

def applyTrace (st : List Row) (ops : List StoreOp) : List Row :=
  ops.foldl applyOp st

/-- The sequence of store operations issued by one ingest run: the delete of
ingest.py line 69 followed by the insert batches of lines 112-113. -/
def ingestTrace (d : String) (rows : List Row) : List StoreOp :=
  StoreOp.delete d :: (sliceBatches BATCH_INSERT rows).map StoreOp.insert

theorem applyTrace_inserts :
    ∀ (bs : List (List Row)) (st : List Row),
      applyTrace st (bs.map StoreOp.insert) = st ++ bs.flatten := by
  intro bs
  induction bs with
  | nil => intro st; simp [applyTrace]
  | cons b rest ih =>
    intro st
    show applyTrace (st ++ b) (rest.map StoreOp.insert) = _
    rw [ih, List.flatten_cons, List.append_assoc]

theorem applyTrace_ingest (d : String) (rows st : List Row) :
    applyTrace st (ingestTrace d rows)
      = st.filter (fun r => r.doc_id ≠ d) ++ rows := by
  show applyTrace (st.filter (fun r => r.doc_id ≠ d))
    ((sliceBatches BATCH_INSERT rows).map StoreOp.insert) = _
  rw [applyTrace_inserts, join_sliceBatches (by decide : 0 < BATCH_INSERT)]

theorem filter_doc_of_filter_ne (d : String) (st : List Row) :
    (st.filter (fun r => r.doc_id ≠ d)).filter (fun r => r.doc_id = d) = [] := by
  rw [List.filter_comm]
  induction st with
  | nil => rfl
  | cons r rest ih =>
    by_cases hr : r.doc_id = d
    · simp [List.filter_cons, hr, ih]
    · simp [List.filter_cons, hr, ih]

theorem filter_doc_state (d : String) (rows st : List Row)
    (h : ∀ r ∈ rows, r.doc_id = d) :
    (applyTrace st (ingestTrace d rows)).filter (fun r => r.doc_id = d)
      = rows := by
  rw [applyTrace_ingest, List.filter_append, filter_doc_of_filter_ne,
    List.nil_append]
  exact List.filter_eq_self.mpr (fun r hr => decide_eq_true (h r hr))

/-- C4: one ingest run issues the delete of all rows of the document id
before any insert (it is the head of the operation trace); after a
successful run the document id maps to exactly the freshly built rows; and
re-running the same ingest leaves exactly the same rows for that id (the
same number of rows as a single ingest). -/
theorem delete_before_insert (d : String) (rows st : List Row)
    (h : ∀ r ∈ rows, r.doc_id = d) :
    (ingestTrace d rows).head? = some (StoreOp.delete d) ∧
      (applyTrace st (ingestTrace d rows)).filter (fun r => r.doc_id = d)
        = rows ∧
      (applyTrace (applyTrace st (ingestTrace d rows))
            (ingestTrace d rows)).filter (fun r => r.doc_id = d)
        = (applyTrace st (ingestTrace d rows)).filter (fun r => r.doc_id = d) :=
  ⟨rfl, filter_doc_state d rows st h,
    (filter_doc_state d rows _ h).trans (filter_doc_state d rows st h).symm⟩

/-- Witness for C4 at a concrete document, row list and initial store. -/
theorem delete_before_insert_witness :
    (ingestTrace "n-v1" [⟨"n-v1", 0, "x", ⟨1, "a.pdf"⟩, [3]⟩]).head?
        = some (StoreOp.delete "n-v1") ∧
      (applyTrace [⟨"other", 0, "y", ⟨1, "b.pdf"⟩, [4]⟩]
            (ingestTrace "n-v1" [⟨"n-v1", 0, "x", ⟨1, "a.pdf"⟩, [3]⟩])).filter
          (fun r => r.doc_id = "n-v1")
        = [⟨"n-v1", 0, "x", ⟨1, "a.pdf"⟩, [3]⟩] ∧
      (applyTrace
            (applyTrace [⟨"other", 0, "y", ⟨1, "b.pdf"⟩, [4]⟩]
              (ingestTrace "n-v1" [⟨"n-v1", 0, "x", ⟨1, "a.pdf"⟩, [3]⟩]))
            (ingestTrace "n-v1" [⟨"n-v1", 0, "x", ⟨1, "a.pdf"⟩, [3]⟩])).filter
          (fun r => r.doc_id = "n-v1")
        = (applyTrace [⟨"other", 0, "y", ⟨1, "b.pdf"⟩, [4]⟩]
              (ingestTrace "n-v1" [⟨"n-v1", 0, "x", ⟨1, "a.pdf"⟩, [3]⟩])).filter
          (fun r => r.doc_id = "n-v1") :=
  delete_before_insert "n-v1" [⟨"n-v1", 0, "x", ⟨1, "a.pdf"⟩, [3]⟩]
    [⟨"other", 0, "y", ⟨1, "b.pdf"⟩, [4]⟩] (by decide)

/-! ### Recursive chunk splitter (claim C8) -/

/-- Modelled from the spec: split on a separator substring, dropping each
occurrence of the separator (the splitter configured in ingest.py lines
61-66 delegates to the external langchain library, which is not part of
src/).  The fuel argument is bounded by the list length so the recursion is
structural. -/
def splitOnSubGo (sep : List Char) : Nat → List Char → List (List Char)
  | _, [] => [[]]
  | 0, l => [l]
  | fuel + 1, c :: rest =>
    if !sep.isEmpty && sep.isPrefixOf (c :: rest) then
      [] :: splitOnSubGo sep fuel ((c :: rest).drop sep.length)
    else
      match splitOnSubGo sep fuel rest with
      | [] => [[c]]
      | p :: ps => (c :: p) :: ps

def splitOnSub (sep : List Char) (l : List Char) : List (List Char) :=
  splitOnSubGo sep l.length l

/-- Modelled from the spec: the recursive separator strategy of §4.2 —
split on the highest-priority separator, and re-split any piece that still
exceeds chunk_size with the next separator in the priority list, ending
with the empty separator, i.e. per-character splitting.  Empty pieces are
discarded before merging. -/
def splitRec (csize : Nat) : List (List Char) → List Char → List (List Char)
  | [], t =>
    if t.length ≤ csize then [t] else t.map (fun c => [c])
  | sep :: rest, t =>
    if t.length ≤ csize then [t]
    else if sep.isEmpty then t.map (fun c => [c])
    else ((splitOnSub sep t).filter (fun p => !p.isEmpty)).flatMap
      (fun p => if p.length ≤ csize then [p] else splitRec csize rest p)

/-- The trailing n characters of a list. -/
def takeLast (n : Nat) (l : List Char) : List Char :=
  l.drop (l.length - n)

/-- Modelled from the spec: merge adjacent pieces back together up to
chunk_size, carrying chunk_overlap trailing characters of the previous
merged chunk into the start of the next when they fit (§4.2, with the
merge rule left open by §9 fixed to trailing-character carry-over). -/
def mergeSplits (csize ov : Nat) : List Char → List (List Char) → List (List Char)
  | cur, [] => if cur.isEmpty then [] else [cur]
  | cur, p :: ps =>
    if cur.length + p.length ≤ csize then
      mergeSplits csize ov (cur ++ p) ps
    else
      cur :: mergeSplits csize ov
        (if (takeLast ov cur).length + p.length ≤ csize
          then takeLast ov cur ++ p else p) ps

/-- The separator priority list of ingest.py line 64. -/
def theSeparators : List (List Char) :=
  [['\n', '\n'], ['\n'], [' '], []]

/-- Modelled from the spec: `text_splitter.split_text` (ingest.py line 82)
with the configured separators, chunk size and overlap. -/
def split_text (csize ov : Nat) (t : List Char) : List (List Char) :=
  mergeSplits csize ov [] (splitRec csize theSeparators t)

theorem splitRec_piece_le {csize : Nat} (hc : 0 < csize) :
    ∀ (seps : List (List Char)) (t p : List Char),
      p ∈ splitRec csize seps t → p.length ≤ csize := by
  intro seps
  induction seps with
  | nil =>
    intro t p hp
    simp only [splitRec] at hp
    split at hp
    · rename_i hle
      rcases List.mem_singleton.mp hp with rfl
      exact hle
    · simp only [List.mem_map] at hp
      obtain ⟨c, -, rfl⟩ := hp
      exact hc
  | cons sep rest ih =>
    intro t p hp
    simp only [splitRec] at hp
    split at hp
    · rename_i hle
      rcases List.mem_singleton.mp hp with rfl
      exact hle
    · split at hp
      · simp only [List.mem_map] at hp
        obtain ⟨c, -, rfl⟩ := hp
        exact hc
      · simp only [List.mem_flatMap] at hp
        obtain ⟨piece, -, hmem⟩ := hp
        split at hmem
        · rename_i hle
          rcases List.mem_singleton.mp hmem with rfl
          exact hle
        · exact ih piece p hmem

theorem mergeSplits_le {csize ov : Nat} :
    ∀ (ps : List (List Char)) (cur : List Char), cur.length ≤ csize →
      (∀ p ∈ ps, p.length ≤ csize) →
      ∀ ch ∈ mergeSplits csize ov cur ps, ch.length ≤ csize := by
  intro ps
  induction ps with
  | nil =>
    intro cur hcur hps ch hch
    simp only [mergeSplits] at hch
    split at hch
    · exact absurd hch (List.not_mem_nil ch)
    · rcases List.mem_singleton.mp hch with rfl
      exact hcur
  | cons p rest ih =>
    intro cur hcur hps ch hch
    have hp : p.length ≤ csize := hps p (List.mem_cons_self p rest)
    have hrest : ∀ x ∈ rest, x.length ≤ csize :=
      fun x hx => hps x (List.mem_cons_of_mem p hx)
    simp only [mergeSplits] at hch
    split at hch
    · rename_i hle
      exact ih (cur ++ p) (by simpa using hle) hrest ch hch
    · rcases List.mem_cons.mp hch with rfl | hch
      · exact hcur
      · refine ih _ ?_ hrest ch hch
        split
        · rename_i hle
          simpa using hle
        · exact hp

/-- C8: for every configuration with overlap < chunk_size, every chunk
produced by the splitter has length at most chunk_size characters. -/
theorem split_text_chunk_le (csize ov : Nat) (hov : ov < csize)
    (t : List Char) :
    ∀ chunk ∈ split_text csize ov t, chunk.length ≤ csize := by
  have hc : 0 < csize := Nat.lt_of_le_of_lt (Nat.zero_le ov) hov
  exact mergeSplits_le _ [] (by simp)
    (fun p hp => splitRec_piece_le hc theSeparators t p hp)

/-- Witness for C8 at the concrete configuration (5, 1) on a sample text. -/
theorem split_text_chunk_le_witness :
    1 < 5 ∧ ∀ chunk ∈ split_text 5 1 "aaaaaaa bbb cc".data, chunk.length ≤ 5 :=
  ⟨by decide, split_text_chunk_le 5 1 (by decide) "aaaaaaa bbb cc".data⟩

/-! ### Query path: embedding response handling (claims C6, C7, C10) -/

/-- JSON-like values for the embedding-service response body
(test_embeddings.py line 45, `data = r.json()`). -/
inductive J where
  | null
  | bool (b : Bool)
  | num (n : Int)
  | str (s : String)
  | arr (xs : List J)
  | obj (fields : List (String × J))

/-- Python `dict.get`: first binding of the key, if any. -/
def jlookup : List (String × J) → String → Option J
  | [], _ => none
  | (k, v) :: rest, key => if k = key then some v else jlookup rest key

/-- Python truthiness of a JSON value (None, 0, "", [] and \x7b\x7d are falsy). -/
def truthy : J → Bool
  | J.null => false
  | J.bool b => b
  | J.num n => n != 0
  | J.str s => s != ""
  | J.arr xs => !xs.isEmpty
  | J.obj fs => !fs.isEmpty

/-- Python truthiness of a `dict.get` result (`None` when the key is absent). -/
def truthyOpt : Option J → Bool
  | some v => truthy v
  | none => false

/-- The code's batch-shape test of test_embeddings.py line 47:
`data.get("data") and isinstance(data["data"], list) and data["data"]`
holds exactly when the "data" key maps to a non-empty list. -/
def isNonemptyList : Option J → Bool
  | some (J.arr (_ :: _)) => true
  | _ => false

/-- Outcome of handling one query in test_embeddings.py main:
an HTTP-failure SystemExit (line 44), a shape SystemExit naming the payload
(line 52), a store search with the extracted embedding (lines 55-62), or an
uncaught Python exception. -/
inductive QueryStep where
  | abortHttp (status : Nat) (text : String)
  | abortShape (payload : J)
  | search (embedding : J)
  | crash

/-- An HTTP response from the embedding service. -/
structure Resp where
  ok : Bool
  status : Nat
  text : String
  body : J

/-- The response-shape branch of test_embeddings.py lines 45-52.  The batch
branch is taken exactly when "data" maps to a non-empty list; its first
element must be a dict (else `.get` raises) and the extracted embedding is
that element's "embedding" value, or None when absent.  Otherwise, a truthy
"embedding" value is used as-is, and failing that the run aborts with a
SystemExit naming the payload. -/
def processFields (fields : List (String × J)) : QueryStep :=
  match jlookup fields "data" with
  | some (J.arr (x :: _)) =>
    (match x with
      | J.obj f2 => QueryStep.search ((jlookup f2 "embedding").getD J.null)
      | _ => QueryStep.crash)
  | _ =>
    (match jlookup fields "embedding" with
      | some v =>
        if truthy v then QueryStep.search v
        else QueryStep.abortShape (J.obj fields)
      | none => QueryStep.abortShape (J.obj fields))

def processBody : J → QueryStep
  | J.obj fields => processFields fields
  | _ => QueryStep.crash

/-- Lines 42-44 of test_embeddings.py: a non-success response raises
SystemExit with the status code and body text before any shape handling. -/
def processResponse (r : Resp) : QueryStep :=
  if r.ok then processBody r.body
  else QueryStep.abortHttp r.status r.text

/-- The per-query loop of test_embeddings.py main: each query's response is
processed in order; a search continues to the next query, while a
SystemExit or an exception stops the whole run. -/
def runQueries (respOf : String → Resp) : List String → List (String × QueryStep)
  | [] => []
  | q :: qs =>
    match processResponse (respOf q) with
    | QueryStep.search e => (q, QueryStep.search e) :: runQueries respOf qs
    | s => [(q, s)]

/-- C7: for every query, a non-success embedding-service response aborts
the run immediately, surfacing the status code and response body, with no
store search for that query and no further queries processed. -/
theorem http_failure_aborts (respOf : String → Resp) (q : String)
    (qs : List String) (h : (respOf q).ok = false) :
    runQueries respOf (q :: qs)
      = [(q, QueryStep.abortHttp (respOf q).status (respOf q).text)] := by
  simp [runQueries, processResponse, h]

/-- Witness for C7 at a concrete failing response. -/
theorem http_failure_aborts_witness :
    runQueries (fun _ => ⟨false, 500, "boom", J.null⟩) ["a", "b"]
      = [("a", QueryStep.abortHttp 500 "boom")] :=
  http_failure_aborts (fun _ => ⟨false, 500, "boom", J.null⟩) "a" ["b"] rfl

theorem processBody_not_batch (fields : List (String × J))
    (hdata : isNonemptyList (jlookup fields "data") = false) :
    processBody (J.obj fields)
      = (match jlookup fields "embedding" with
          | some v =>
            if truthy v then QueryStep.search v
            else QueryStep.abortShape (J.obj fields)
          | none => QueryStep.abortShape (J.obj fields)) := by
  show processFields fields = _
  unfold processFields
  split
  · rename_i x tail heq
    rw [heq] at hdata
    exact absurd hdata (by simp [isNonemptyList])
  · rfl

/-- C6 (amended): when neither branch test of test_embeddings.py lines
47-49 passes — the "data" field is not a non-empty list and the
"embedding" field is not truthy — the run aborts with a SystemExit naming
the offending payload, no store search is issued for that query, and no
further queries are processed.  (The code's batch-shape test only checks
that "data" is a non-empty list; it does not require the first element to
carry an "embedding", which is where the original claim fails.) -/
theorem shape_mismatch_aborts (respOf : String → Resp) (q : String)
    (qs : List String) (fields : List (String × J))
    (hok : (respOf q).ok = true) (hbody : (respOf q).body = J.obj fields)
    (hdata : isNonemptyList (jlookup fields "data") = false)
    (hemb : truthyOpt (jlookup fields "embedding") = false) :
    runQueries respOf (q :: qs) = [(q, QueryStep.abortShape (J.obj fields))] := by
  have hpb : processBody (J.obj fields) = QueryStep.abortShape (J.obj fields) := by
    rw [processBody_not_batch fields hdata]
    cases he : jlookup fields "embedding" with
    | none => rfl
    | some v =>
      rw [he] at hemb
      simp only [truthyOpt] at hemb
      simp [hemb]
  have hstep : processResponse (respOf q) = QueryStep.abortShape (J.obj fields) := by
    simp [processResponse, hok, hbody, hpb]
  simp [runQueries, hstep]

/-- Witness for C6 at a concrete unrecognized payload. -/
theorem shape_mismatch_aborts_witness :
    runQueries (fun _ => ⟨true, 200, "", J.obj [("foo", J.num 1)]⟩) ["q1", "q2"]
      = [("q1", QueryStep.abortShape (J.obj [("foo", J.num 1)]))] :=
  shape_mismatch_aborts (fun _ => ⟨true, 200, "", J.obj [("foo", J.num 1)]⟩)
    "q1" ["q2"] [("foo", J.num 1)] rfl rfl rfl rfl

/-- C6 counterexample: the body with "data" mapped to a one-element list
whose element carries no "embedding" key is neither the claim's batch shape
(first element carries an "embedding") nor the single-vector shape, yet the
code takes the batch branch, extracts a null embedding, and issues the
store search instead of aborting. -/
theorem shape_mismatch_counterexample :
    processResponse ⟨true, 200, "",
        J.obj [("data", J.arr [J.obj [("foo", J.num 1)]])]⟩
      = QueryStep.search J.null := rfl

/-- C10 (amended): the shape branches test Python truthiness, not key
presence: a body carrying a "data" key mapped to the empty list and an
"embedding" key mapped to the empty vector aborts as an unrecognized shape
even though both keys are present; but when the other branch is satisfiable
the run proceeds through it instead of aborting. -/
theorem empty_truthiness_aborts (fields : List (String × J))
    (hd : jlookup fields "data" = some (J.arr []))
    (he : jlookup fields "embedding" = some (J.arr [])) :
    processBody (J.obj fields) = QueryStep.abortShape (J.obj fields) := by
  rw [processBody_not_batch fields (by rw [hd]; rfl)]
  rw [he]
  rfl

/-- Witness for C10 at a concrete body with both keys present but falsy. -/
theorem empty_truthiness_aborts_witness :
    processBody (J.obj [("data", J.arr []), ("embedding", J.arr [])])
      = QueryStep.abortShape
          (J.obj [("data", J.arr []), ("embedding", J.arr [])]) :=
  empty_truthiness_aborts [("data", J.arr []), ("embedding", J.arr [])] rfl rfl

/-- C10 counterexample: a body whose "data" field is the empty list but
whose "embedding" field is a non-empty vector does not abort: the run
proceeds with a store search through the single-vector branch. -/
theorem empty_data_counterexample :
    processResponse ⟨true, 200, "",
        J.obj [("data", J.arr []), ("embedding", J.arr [J.num 1])]⟩
      = QueryStep.search (J.arr [J.num 1]) := rfl
